import Mathlib

/-!
Verification of the subnet-calculator allocator engine.

This file shallowly embeds the Go package internal/subnet (the two-index
Calculator design: IPv4Pools, AllocatedIPv4Prefixes, IPv6Pools,
AllocatedIPv6Prefixes) together with the shared byte-level address
arithmetic (increment4, increment16) and the candidate enumerator
(subnetFactory.run4 / run6).  Addresses are modelled as natural numbers
below 2^W together with a family tag; radix trees are modelled as
association lists sorted by the 16-byte insertion key, which preserves
the byte-lexicographic walk order of the tree.  Names avoid the word
Prefix in identifiers (Pfx is used instead); each definition notes the
Go function it embeds.
-/

namespace SubnetCalc

/-- Address family tag: v4 or v6 (Go netip Is4 / Is6 classification). -/
inductive Fam where
  | v4 : Fam
  | v6 : Fam
deriving DecidableEq, Repr

/-- Bit width of an address family: 32 for IPv4, 128 for IPv6. -/
def Fam.width : Fam → Nat
  | .v4 => 32
  | .v6 => 128

/-- An IP address: family tag plus numeric value (big-endian byte value). -/
structure Addr where
  fam : Fam
  val : Nat
deriving DecidableEq, Repr

/-- A CIDR prefix: network address plus mask length (Go netip.Prefix). -/
structure Pfx where
  addr : Addr
  bits : Nat
deriving DecidableEq, Repr

/-- Big-endian value of a byte list: byteVal [a, b] = a * 256 + b. -/
def byteVal : List Nat → Nat
  | [] => 0
  | b :: t => b * 256 ^ t.length + byteVal t

/-- Big-endian byte list of length n for a value (truncating above 256 ^ n). -/
def toBytes : Nat → Nat → List Nat
  | 0, _ => []
  | k + 1, v => toBytes k (v / 256) ++ [v % 256]

/-- Carry-propagation loop of Go increment4 / increment16: after the byte at
index octet has been written, while carry is nonzero move one octet toward
index 0, add the carry there, and on carry out of index 0 return the all-zero
array of the same length. -/
def propagateCarry : Nat → List Nat → Nat → List Nat
  | _, a, 0 => a
  | 0, a, _ + 1 => List.replicate a.length 0
  | o + 1, a, carry + 1 =>
    propagateCarry o (a.set o ((a.getD o 0 + (carry + 1)) % 256)) ((a.getD o 0 + (carry + 1)) / 256)

/-- Go increment4 / increment16 on a big-endian byte list: add
128 >> ((bit - 1) mod 8) at octet (bit - 1) / 8 and propagate the carry
toward index 0; on carry out of index 0 the result is the all-zero array.
Go panics for bit = 0 (negative shift count); this model is only ever used
with bit at least 1. -/
def incrementBE (a : List Nat) (bit : Nat) : List Nat :=
  let octet := (bit - 1) / 8
  let v := 128 >>> ((bit - 1) % 8)
  let sum := a.getD octet 0 + v
  propagateCarry octet (a.set octet (sum % 256)) (sum / 256)

/-- Value-level behaviour of increment4 / increment16 for a W-bit address:
add 2 ^ (W - bit); if the sum overflows W bits the result is zero (the
all-zero address), matching the carry-out case of the byte loop. -/
def incVal (W a bit : Nat) : Nat :=
  if a + 2 ^ (W - bit) < 2 ^ W then a + 2 ^ (W - bit) else 0

/-- Go netip.Prefix.Contains on an address: the families must agree, the mask
length must be a valid bit count for the family (an invalid prefix contains
nothing), and the top bits of the address down to the mask length must equal
those of the network address.  Comparing the values shifted right by
(W - bits) compares exactly the top bits. -/
def containsAddr (p : Pfx) (a : Addr) : Bool :=
  decide (p.addr.fam = a.fam) && decide (p.bits ≤ p.addr.fam.width) &&
    decide (a.val / 2 ^ (p.addr.fam.width - p.bits) =
      p.addr.val / 2 ^ (p.addr.fam.width - p.bits))

/-- Containment of one prefix in another as the spec defines it: prefix A
contains prefix B iff the mask of B is at least the mask of A and A contains
the network address of B.  Modelled from the spec: the engine source never
compares mask lengths, so this definition follows the spec text and is used
to compare spec statements against the code. -/
def specContainsPfx (p q : Pfx) : Bool :=
  decide (p.bits ≤ q.bits) && containsAddr p q.addr

/-- Canonical form of a prefix: every host bit below the mask length is zero. -/
def isCanonical (p : Pfx) : Bool :=
  decide (p.addr.val % 2 ^ (p.addr.fam.width - p.bits) = 0)

/-- Validity of a prefix value in this model: the address value fits the
family width and the mask length is a legal bit count. -/
def validPfx (p : Pfx) : Prop :=
  p.addr.val < 2 ^ p.addr.fam.width ∧ p.bits ≤ p.addr.fam.width

instance (p : Pfx) : Decidable (validPfx p) := by
  unfold validPfx
  infer_instance

/-- The 16-byte insertion key of Go prefix.Addr().As16(): a v6 address gives
its 16 bytes; a v4 address gives its IPv4-mapped form, ten zero bytes then
0xff 0xff then the four address bytes. -/
def keyBytes (a : Addr) : List Nat :=
  match a.fam with
  | .v4 => List.replicate 10 0 ++ [255, 255] ++ toBytes 4 a.val
  | .v6 => toBytes 16 a.val

/-- Numeric value of the 16-byte insertion key; byte-lexicographic order on
the equal-length keys coincides with numeric order of this value. -/
def keyVal (a : Addr) : Nat := byteVal (keyBytes a)

/-- Insertion into a radix tree, modelled on the sorted association list of
its entries: the walk of the tree visits keys in ascending byte order, and
inserting an existing key replaces its value. -/
def insertKV (k : Nat) (v : Pfx) : List (Nat × Pfx) → List (Nat × Pfx)
  | [] => [(k, v)]
  | (k2, v2) :: t =>
    if k < k2 then (k, v) :: (k2, v2) :: t
    else if k = k2 then (k, v) :: t
    else (k2, v2) :: insertKV k v t

/-- Deletion by key from a radix tree, modelled on its entry list. -/
def deleteKV (k : Nat) (l : List (Nat × Pfx)) : List (Nat × Pfx) :=
  l.filter (fun e => decide (e.1 ≠ k))

/-- Values of a tree in walk order. -/
def treeVals (l : List (Nat × Pfx)) : List Pfx := l.map Prod.snd

/-- The two-index calculator state of the Go subnet package: per-family pool
and allocation trees. -/
structure Calculator where
  ipv4Pools : List (Nat × Pfx)
  allocatedIPv4Pfxs : List (Nat × Pfx)
  ipv6Pools : List (Nat × Pfx)
  allocatedIPv6Pfxs : List (Nat × Pfx)
deriving DecidableEq, Repr

/-- Go NewCalculator: all four indexes empty. -/
def newCalculator : Calculator := ⟨[], [], [], []⟩

/-- Go Calculator.AddPool: key the prefix by its 16-byte address and insert
it, as given, into the pool tree of its family. -/
def addPool (c : Calculator) (p : Pfx) : Calculator :=
  if p.addr.fam = .v4 then { c with ipv4Pools := insertKV (keyVal p.addr) p c.ipv4Pools }
  else { c with ipv6Pools := insertKV (keyVal p.addr) p c.ipv6Pools }

/-- Go Calculator.DeletePool: delete the key of the prefix from the pool tree
of its family. -/
def deletePool (c : Calculator) (p : Pfx) : Calculator :=
  if p.addr.fam = .v4 then { c with ipv4Pools := deleteKV (keyVal p.addr) c.ipv4Pools }
  else { c with ipv6Pools := deleteKV (keyVal p.addr) c.ipv6Pools }

/-- Go Calculator.AddAllocatedPrefix: key the prefix by its 16-byte address
and insert it, as given, into the allocation tree of its family. -/
def addAllocatedPfx (c : Calculator) (p : Pfx) : Calculator :=
  if p.addr.fam = .v4 then
    { c with allocatedIPv4Pfxs := insertKV (keyVal p.addr) p c.allocatedIPv4Pfxs }
  else
    { c with allocatedIPv6Pfxs := insertKV (keyVal p.addr) p c.allocatedIPv6Pfxs }

/-- Go Calculator.DeleteAllocatedPrefix: delete the key of the prefix from
the allocation tree of its family. -/
def deleteAllocatedPfx (c : Calculator) (p : Pfx) : Calculator :=
  if p.addr.fam = .v4 then
    { c with allocatedIPv4Pfxs := deleteKV (keyVal p.addr) c.allocatedIPv4Pfxs }
  else
    { c with allocatedIPv6Pfxs := deleteKV (keyVal p.addr) c.allocatedIPv6Pfxs }

/-- Go Calculator.PrefixInPools: walk the pool tree of the family of the
query and report whether some pool contains the network address of the
query.  The mask length of the query is never inspected. -/
def pfxInPools (c : Calculator) (p : Pfx) : Bool :=
  (if p.addr.fam = .v6 then c.ipv6Pools else c.ipv4Pools).any
    (fun e => containsAddr e.2 p.addr)

/-- Go Calculator.prefixAvailable: walk the allocation tree of the family of
the candidate and report that the candidate is available iff no allocated
entry contains the candidate address and the candidate contains no allocated
entry address. -/
def pfxAvailable (c : Calculator) (p : Pfx) : Bool :=
  ! (if p.addr.fam = .v6 then c.allocatedIPv6Pfxs else c.allocatedIPv4Pfxs).any
    (fun e => containsAddr e.2 p.addr || containsAddr p e.2.addr)

/-- State of the producer goroutine of Go subnetFactory.run4 / run6: the
pools not yet started, in walk order, and, when inside the inner loop of a
pool, that pool together with the current address value. -/
structure FactoryState where
  pools : List Pfx
  cur : Option (Pfx × Nat)
deriving DecidableEq, Repr

/-- Head of the outer walk of run4 / run6: starting the next pool emits the
prefix built from the pool address and the requested mask length,
unconditionally. -/
def startPool (f : Fam) (m : Nat) : List Pfx → Option (Pfx × FactoryState)
  | [] => none
  | n :: rest => some (⟨⟨f, n.addr.val⟩, m⟩, ⟨rest, some (n, n.addr.val)⟩)

/-- One emission step of the producer of run4 / run6: inside a pool the
address is incremented by 2 ^ (W - m); if the pool still contains it the
candidate is emitted, otherwise the inner loop breaks and the walk moves to
the next pool.  Exhausting the walk closes the channel (none). -/
def factoryStep (f : Fam) (m : Nat) (s : FactoryState) : Option (Pfx × FactoryState) :=
  match s.cur with
  | none => startPool f m s.pools
  | some (n, a) =>
    let a2 := incVal f.width a m
    if containsAddr n ⟨f, a2⟩ then some (⟨⟨f, a2⟩, m⟩, ⟨s.pools, some (n, a2)⟩)
    else startPool f m s.pools

/-- The i-th candidate the producer emits from a given state (none when the
channel closes before that many candidates). -/
def factoryEmit (f : Fam) (m : Nat) : FactoryState → Nat → Option Pfx
  | s, 0 => (factoryStep f m s).map Prod.fst
  | s, i + 1 =>
    match factoryStep f m s with
    | none => none
    | some (_, s2) => factoryEmit f m s2 i

/-- The i-th candidate of the enumerator over a pool walk, counting across
pools in walk order. -/
def enumEmit (f : Fam) (m : Nat) (pools : List Pfx) (i : Nat) : Option Pfx :=
  factoryEmit f m ⟨pools, none⟩ i

/-- Consumer loop of Go NextAvailableIPv4Subnet / NextAvailableIPv6Subnet:
pull candidates and return the first available one.  The fuel bounds the
number of candidates inspected; none covers both fuel exhaustion and a
closed channel (the NoSuitablePrefix error). -/
def navLoop (c : Calculator) (f : Fam) (m : Nat) : FactoryState → Nat → Option Pfx
  | _, 0 => none
  | s, fuel + 1 =>
    match factoryStep f m s with
    | none => none
    | some (cand, s2) => if pfxAvailable c cand then some cand else navLoop c f m s2 fuel

/-- Go NextAvailableIPv4Subnet: run the factory over the v4 pools, return the
first available candidate and record it in the v4 allocation tree. -/
def nextAvailableIPv4Subnet (c : Calculator) (numBits : Nat) (fuel : Nat) :
    Option (Pfx × Calculator) :=
  match navLoop c .v4 numBits ⟨treeVals c.ipv4Pools, none⟩ fuel with
  | none => none
  | some p =>
    some (p, { c with allocatedIPv4Pfxs := insertKV (keyVal p.addr) p c.allocatedIPv4Pfxs })

/-- Go NextAvailableIPv6Subnet: run the factory over the v6 pools, return the
first available candidate and record it in the v6 allocation tree. -/
def nextAvailableIPv6Subnet (c : Calculator) (numBits : Nat) (fuel : Nat) :
    Option (Pfx × Calculator) :=
  match navLoop c .v6 numBits ⟨treeVals c.ipv6Pools, none⟩ fuel with
  | none => none
  | some p =>
    some (p, { c with allocatedIPv6Pfxs := insertKV (keyVal p.addr) p c.allocatedIPv6Pfxs })

/-- Well-formedness of the values of a pool tree of family f: every entry is
of family f (the per-family dispatch of AddPool guarantees this) with a
legal mask length. -/
def poolsOk (f : Fam) (l : List Pfx) : Prop :=
  ∀ n ∈ l, n.addr.fam = f ∧ n.bits ≤ f.width

instance (f : Fam) (l : List Pfx) : Decidable (poolsOk f l) := by
  unfold poolsOk
  infer_instance

/-- Invariant of the producer state relative to the pool values of the walk:
pending pools come from the walk, and the current address of the inner loop
is contained in its pool. -/
def factoryInv (f : Fam) (walkVals : List Pfx) (s : FactoryState) : Prop :=
  (∀ n ∈ s.pools, n ∈ walkVals) ∧
    (∀ n a, s.cur = some (n, a) → n ∈ walkVals ∧ containsAddr n ⟨f, a⟩ = true)

/-- An explicit insertion operation of the host API: AddPool or
AddAllocatedPrefix with a given argument. -/
inductive CalcOp where
  | addPoolOp (p : Pfx) : CalcOp
  | addAllocOp (p : Pfx) : CalcOp
deriving DecidableEq, Repr

/-- Apply one insertion operation to a calculator. -/
def applyOp (c : Calculator) : CalcOp → Calculator
  | .addPoolOp p => addPool c p
  | .addAllocOp p => addAllocatedPfx c p

/-- Apply a sequence of insertion operations, left to right. -/
def applyOps (c : Calculator) (ops : List CalcOp) : Calculator :=
  ops.foldl applyOp c

/-- The argument prefix of an insertion operation. -/
def opArg : CalcOp → Pfx
  | .addPoolOp p => p
  | .addAllocOp p => p

/-- All prefixes stored across the four indexes of a calculator. -/
def storedPfxs (c : Calculator) : List Pfx :=
  treeVals c.ipv4Pools ++ treeVals c.allocatedIPv4Pfxs ++
    treeVals c.ipv6Pools ++ treeVals c.allocatedIPv6Pfxs

/-- The pool 10.0.0.0/24. -/
def pool24 : Pfx := ⟨⟨.v4, 10 * 2 ^ 24⟩, 24⟩

/-- The pool 10.0.0.0/16. -/
def pool16 : Pfx := ⟨⟨.v4, 10 * 2 ^ 24⟩, 16⟩

/-- The pool 0.0.0.0/0: the whole IPv4 space, a legal CIDR. -/
def pool00 : Pfx := ⟨⟨.v4, 0⟩, 0⟩

/-- The non-canonical prefix 10.0.0.1/24: host bit set below the mask. -/
def badPool : Pfx := ⟨⟨.v4, 10 * 2 ^ 24 + 1⟩, 24⟩

/-- The prefix 10.0.0.0/16 used as a query. -/
def query16 : Pfx := ⟨⟨.v4, 10 * 2 ^ 24⟩, 16⟩

/-- A calculator holding the single pool 10.0.0.0/24. -/
def calcPool24 : Calculator := addPool newCalculator pool24

theorem byteVal_nil : byteVal [] = 0 := rfl

theorem byteVal_cons (b : Nat) (t : List Nat) :
    byteVal (b :: t) = b * 256 ^ t.length + byteVal t := rfl

theorem byteVal_lt (a : List Nat) (h : ∀ b ∈ a, b < 256) :
    byteVal a < 256 ^ a.length := by
  induction a with
  | nil => simp [byteVal]
  | cons b t ih =>
    have hb : b < 256 := h b (by simp)
    have ht : byteVal t < 256 ^ t.length := ih (fun x hx => h x (by simp [hx]))
    have hb1 : b + 1 ≤ 256 := hb
    calc byteVal (b :: t) = b * 256 ^ t.length + byteVal t := rfl
    _ < b * 256 ^ t.length + 256 ^ t.length := by omega
    _ = (b + 1) * 256 ^ t.length := by ring
    _ ≤ 256 * 256 ^ t.length := Nat.mul_le_mul_right _ hb1
    _ = 256 ^ (t.length + 1) := by ring
    _ = 256 ^ (b :: t).length := by simp

theorem length_toBytes (n v : Nat) : (toBytes n v).length = n := by
  induction n generalizing v with
  | zero => rfl
  | succ k ih => simp [toBytes, ih]

theorem mem_toBytes_lt (n v : Nat) : ∀ b ∈ toBytes n v, b < 256 := by
  induction n generalizing v with
  | zero => simp [toBytes]
  | succ k ih =>
    intro b hb
    simp only [toBytes, List.mem_append, List.mem_singleton] at hb
    rcases hb with hb | hb
    · exact ih _ b hb
    · subst hb; exact Nat.mod_lt _ (by norm_num)

theorem byteVal_append_single (l : List Nat) (b : Nat) :
    byteVal (l ++ [b]) = 256 * byteVal l + b := by
  induction l with
  | nil => simp [byteVal]
  | cons h t ih =>
    simp only [List.cons_append, byteVal_cons, ih, List.length_append,
      List.length_cons, List.length_nil]
    ring

theorem byteVal_toBytes (n v : Nat) : byteVal (toBytes n v) = v % 256 ^ n := by
  induction n generalizing v with
  | zero => simp [toBytes, byteVal, Nat.mod_one]
  | succ k ih =>
    have hmul : v % 256 ^ (k + 1) = v % 256 + 256 * (v / 256 % 256 ^ k) := by
      rw [pow_succ, mul_comm (256 ^ k) 256, Nat.mod_mul]
    simp only [toBytes, byteVal_append_single, ih, hmul]
    ring

theorem toBytes_byteVal (a : List Nat) (h : ∀ b ∈ a, b < 256) :
    toBytes a.length (byteVal a) = a := by
  induction a using List.reverseRecOn with
  | nil => rfl
  | append_singleton l b ih =>
    have hb : b < 256 := h b (by simp)
    have hl : ∀ x ∈ l, x < 256 := fun x hx => h x (by simp [hx])
    have hlen : (l ++ [b]).length = l.length + 1 := by simp
    rw [hlen, byteVal_append_single, toBytes]
    have hdiv : (256 * byteVal l + b) / 256 = byteVal l := by omega
    have hmod : (256 * byteVal l + b) % 256 = b := by omega
    rw [hdiv, hmod, ih hl]

theorem byteVal_set (a : List Nat) (o v : Nat) (ho : o < a.length) :
    byteVal (a.set o v) + a.getD o 0 * 256 ^ (a.length - 1 - o) =
      byteVal a + v * 256 ^ (a.length - 1 - o) := by
  induction a generalizing o with
  | nil => simp at ho
  | cons h t ih =>
    cases o with
    | zero =>
      simp only [List.set_cons_zero, byteVal_cons, List.getD_cons_zero,
        List.length_cons, Nat.add_sub_cancel, Nat.sub_zero]
      ring
    | succ o =>
      have ho' : o < t.length := by simpa using ho
      have he : (h :: t).length - 1 - (o + 1) = t.length - 1 - o := by
        simp only [List.length_cons]
        omega
      rw [List.set_cons_succ, byteVal_cons, byteVal_cons, List.getD_cons_succ,
        he, List.length_set]
      have := ih o ho'
      linarith

theorem bytes_lt_set (a : List Nat) (o v : Nat) (hv : v < 256)
    (hbytes : ∀ b ∈ a, b < 256) : ∀ b ∈ a.set o v, b < 256 := by
  intro b hb
  rcases List.mem_or_eq_of_mem_set hb with hb | hb
  · exact hbytes b hb
  · omega

theorem getD_lt (a : List Nat) (o : Nat) (ho : o < a.length)
    (hbytes : ∀ b ∈ a, b < 256) : a.getD o 0 < 256 := by
  rw [List.getD_eq_getElem a 0 ho]
  exact hbytes _ (List.getElem_mem ho)

theorem byteVal_set_carry (a : List Nat) (o add : Nat) (ho : o < a.length) :
    byteVal (a.set o ((a.getD o 0 + add) % 256)) +
        ((a.getD o 0 + add) / 256) * 256 ^ (a.length - o) =
      byteVal a + add * 256 ^ (a.length - 1 - o) := by
  have hw : 256 ^ (a.length - o) = 256 * 256 ^ (a.length - 1 - o) := by
    have hs : a.length - o = (a.length - 1 - o) + 1 := by omega
    rw [hs, pow_succ]
    ring
  have e1 := byteVal_set a o ((a.getD o 0 + add) % 256) ho
  have e2 : (a.getD o 0 + add) % 256 + 256 * ((a.getD o 0 + add) / 256) =
      a.getD o 0 + add := Nat.mod_add_div _ _
  rw [hw]
  apply Nat.add_right_cancel (m := a.getD o 0 * 256 ^ (a.length - 1 - o))
  calc byteVal (a.set o ((a.getD o 0 + add) % 256)) +
        (a.getD o 0 + add) / 256 * (256 * 256 ^ (a.length - 1 - o)) +
        a.getD o 0 * 256 ^ (a.length - 1 - o)
      = (byteVal (a.set o ((a.getD o 0 + add) % 256)) +
          a.getD o 0 * 256 ^ (a.length - 1 - o)) +
          256 * ((a.getD o 0 + add) / 256) * 256 ^ (a.length - 1 - o) := by ring
    _ = (byteVal a + ((a.getD o 0 + add) % 256) * 256 ^ (a.length - 1 - o)) +
          256 * ((a.getD o 0 + add) / 256) * 256 ^ (a.length - 1 - o) := by rw [e1]
    _ = byteVal a + ((a.getD o 0 + add) % 256 + 256 * ((a.getD o 0 + add) / 256)) *
          256 ^ (a.length - 1 - o) := by ring
    _ = byteVal a + (a.getD o 0 + add) * 256 ^ (a.length - 1 - o) := by rw [e2]
    _ = byteVal a + add * 256 ^ (a.length - 1 - o) +
          a.getD o 0 * 256 ^ (a.length - 1 - o) := by ring

theorem propagateCarry_spec (octet : Nat) : ∀ (a : List Nat) (carry : Nat),
    (∀ b ∈ a, b < 256) → octet ≤ a.length → carry ≤ 1 →
    propagateCarry octet a carry =
      if byteVal a + carry * 256 ^ (a.length - octet) < 256 ^ a.length
      then toBytes a.length (byteVal a + carry * 256 ^ (a.length - octet))
      else List.replicate a.length 0 := by
  induction octet with
  | zero =>
    intro a carry hbytes _ hcarry
    interval_cases carry
    · have hlt : byteVal a < 256 ^ a.length := byteVal_lt a hbytes
      simp only [propagateCarry, Nat.zero_mul, Nat.add_zero, if_pos hlt]
      exact (toBytes_byteVal a hbytes).symm
    · have hge : ¬ byteVal a + 1 * 256 ^ (a.length - 0) < 256 ^ a.length := by
        simp only [Nat.one_mul, Nat.sub_zero]
        omega
      simp only [propagateCarry, if_neg hge]
  | succ o ih =>
    intro a carry hbytes hoct hcarry
    interval_cases carry
    · have hlt : byteVal a < 256 ^ a.length := byteVal_lt a hbytes
      simp only [propagateCarry, Nat.zero_mul, Nat.add_zero, if_pos hlt]
      exact (toBytes_byteVal a hbytes).symm
    · have ho : o < a.length := by omega
      have hx : a.getD o 0 < 256 := getD_lt a o ho hbytes
      have hrec : propagateCarry (o + 1) a 1 =
          propagateCarry o (a.set o ((a.getD o 0 + 1) % 256)) ((a.getD o 0 + 1) / 256) := rfl
      have hlen2 : (a.set o ((a.getD o 0 + 1) % 256)).length = a.length :=
        List.length_set a o _
      have hbytes2 : ∀ b ∈ a.set o ((a.getD o 0 + 1) % 256), b < 256 :=
        bytes_lt_set a o _ (Nat.mod_lt _ (by norm_num)) hbytes
      have hkey := byteVal_set_carry a o 1 ho
      have hexp : a.length - 1 - o = a.length - (o + 1) := by omega
      rw [hexp, one_mul] at hkey
      rw [hrec, ih _ ((a.getD o 0 + 1) / 256) hbytes2 (by omega) (by omega),
        hlen2, hkey]
      simp only [one_mul]

/-- Correctness of the byte-level increment of Go increment4 and increment16:
on a valid big-endian byte array it computes the value plus 2 ^ (W - bit),
returning the all-zero array exactly when that sum overflows W bits. -/
theorem incrementBE_correct (a : List Nat) (bit : Nat)
    (hbytes : ∀ b ∈ a, b < 256) (h1 : 1 ≤ bit) (h2 : bit ≤ 8 * a.length) :
    incrementBE a bit =
      if byteVal a + 2 ^ (8 * a.length - bit) < 2 ^ (8 * a.length)
      then toBytes a.length (byteVal a + 2 ^ (8 * a.length - bit))
      else List.replicate a.length 0 := by
  have hL : 1 ≤ a.length := by omega
  have hoctlt : (bit - 1) / 8 < a.length := by omega
  have hr8 : (bit - 1) % 8 < 8 := by omega
  have hv : (128 : Nat) >>> ((bit - 1) % 8) = 2 ^ (7 - (bit - 1) % 8) := by
    rw [Nat.shiftRight_eq_div_pow]
    have h128 : (128 : Nat) = 2 ^ 7 := by norm_num
    rw [h128, Nat.pow_div (by omega) (by norm_num)]
  have hunfold : incrementBE a bit =
      propagateCarry ((bit - 1) / 8)
        (a.set ((bit - 1) / 8)
          ((a.getD ((bit - 1) / 8) 0 + 128 >>> ((bit - 1) % 8)) % 256))
        ((a.getD ((bit - 1) / 8) 0 + 128 >>> ((bit - 1) % 8)) / 256) := rfl
  rw [hv] at hunfold
  have hx : a.getD ((bit - 1) / 8) 0 < 256 := getD_lt a _ hoctlt hbytes
  have hvb : 2 ^ (7 - (bit - 1) % 8) ≤ 128 := by
    calc (2 : Nat) ^ (7 - (bit - 1) % 8) ≤ 2 ^ 7 :=
      Nat.pow_le_pow_right (by norm_num) (by omega)
    _ = 128 := by norm_num
  have hlen2 : (a.set ((bit - 1) / 8)
      ((a.getD ((bit - 1) / 8) 0 + 2 ^ (7 - (bit - 1) % 8)) % 256)).length = a.length :=
    List.length_set a _ _
  have hbytes2 : ∀ b ∈ a.set ((bit - 1) / 8)
      ((a.getD ((bit - 1) / 8) 0 + 2 ^ (7 - (bit - 1) % 8)) % 256), b < 256 :=
    bytes_lt_set a _ _ (Nat.mod_lt _ (by norm_num)) hbytes
  have hcarry2 : (a.getD ((bit - 1) / 8) 0 + 2 ^ (7 - (bit - 1) % 8)) / 256 ≤ 1 := by
    omega
  have hspec := propagateCarry_spec ((bit - 1) / 8) _ _ hbytes2 (by omega) hcarry2
  have hkey := byteVal_set_carry a ((bit - 1) / 8) (2 ^ (7 - (bit - 1) % 8)) hoctlt
  have hvw : 2 ^ (7 - (bit - 1) % 8) * 256 ^ (a.length - 1 - (bit - 1) / 8) =
      2 ^ (8 * a.length - bit) := by
    have h256 : (256 : Nat) = 2 ^ 8 := by norm_num
    rw [h256, ← pow_mul, ← pow_add]
    congr 1
    omega
  rw [hvw] at hkey
  have h2W : 256 ^ a.length = 2 ^ (8 * a.length) := by
    have h256 : (256 : Nat) = 2 ^ 8 := by norm_num
    rw [h256, ← pow_mul]
  rw [hunfold, hspec, hlen2, hkey, h2W]

theorem insertKV_idem (k : Nat) (v : Pfx) (l : List (Nat × Pfx)) :
    insertKV k v (insertKV k v l) = insertKV k v l := by
  induction l with
  | nil => simp [insertKV]
  | cons e t ih =>
    obtain ⟨k2, v2⟩ := e
    by_cases h1 : k < k2
    · simp [insertKV, h1, lt_irrefl]
    · by_cases h2 : k = k2
      · subst h2
        simp [insertKV, lt_irrefl]
      · simp only [insertKV, if_neg h1, if_neg h2, ih]

theorem deleteKV_idem (k : Nat) (l : List (Nat × Pfx)) :
    deleteKV k (deleteKV k l) = deleteKV k l := by
  simp [deleteKV, List.filter_filter]

/-- Claim C8 (confirmed): AddPool is idempotent and DeleteAllocatedPrefix is
idempotent: doing either operation twice with the same prefix yields the same
calculator state as doing it once. -/
theorem c8_idempotence (c : Calculator) (p : Pfx) :
    addPool (addPool c p) p = addPool c p ∧
      deleteAllocatedPfx (deleteAllocatedPfx c p) p = deleteAllocatedPfx c p := by
  constructor
  · by_cases h : p.addr.fam = .v4 <;>
      simp [addPool, h, insertKV_idem]
  · by_cases h : p.addr.fam = .v4 <;>
      simp [deleteAllocatedPfx, h, deleteKV_idem]

/-- Claim C6 (confirmed): for a 4-byte or 16-byte big-endian address and a
bit position k with 1 ≤ k ≤ W, increment4 / increment16 return the byte
representation of the value plus 2 ^ (W - k) when that sum fits in W bits,
and the all-zero address exactly when the addition carries out of octet 0,
that is when the sum reaches 2 ^ W. -/
theorem c6_increment_at_bit (a : List Nat) (k : Nat)
    (hlen : a.length = 4 ∨ a.length = 16)
    (hbytes : ∀ b ∈ a, b < 256) (h1 : 1 ≤ k) (h2 : k ≤ 8 * a.length) :
    (byteVal a + 2 ^ (8 * a.length - k) < 2 ^ (8 * a.length) →
      incrementBE a k = toBytes a.length (byteVal a + 2 ^ (8 * a.length - k))) ∧
    (2 ^ (8 * a.length) ≤ byteVal a + 2 ^ (8 * a.length - k) →
      incrementBE a k = List.replicate a.length 0) := by
  have h := incrementBE_correct a k hbytes h1 h2
  constructor
  · intro hlt
    rw [h, if_pos hlt]
  · intro hge
    rw [h, if_neg (by omega)]

/-- Witness for C6: incrementing 10.0.0.0 at bit 24 yields 10.0.1.0. -/
theorem c6_increment_at_bit_witness : incrementBE [10, 0, 0, 0] 24 = [10, 0, 1, 0] := by
  have h := (c6_increment_at_bit [10, 0, 0, 0] 24 (by decide) (by decide)
    (by decide) (by decide)).1 (by decide)
  rw [h]
  decide

/-- Claim C4 counterexample: the calculator holding the single pool
10.0.0.0/24 answers true to PrefixInPools for the query 10.0.0.0/16, yet no
stored pool contains that query as a prefix (16 < 24), so the claimed iff
fails: the code ignores the mask length of the query. -/
theorem c4_counterexample :
    pfxInPools calcPool24 query16 = true ∧
      (treeVals calcPool24.ipv4Pools).all (fun e => ! specContainsPfx e query16) = true := by
  decide

/-- Claim C4 (corrected): PrefixInPools returns true iff some pool entry of
the family of the query contains the network address of the query; the mask
length of the query is not compared. -/
theorem c4_pfx_in_pools_amended (c : Calculator) (q : Pfx) :
    pfxInPools c q = true ↔
      ∃ e ∈ (if q.addr.fam = .v6 then c.ipv6Pools else c.ipv4Pools),
        containsAddr e.2 q.addr = true := by
  simp [pfxInPools, List.any_eq_true]

theorem byteVal_append (l1 l2 : List Nat) :
    byteVal (l1 ++ l2) = byteVal l1 * 256 ^ l2.length + byteVal l2 := by
  induction l1 with
  | nil => simp [byteVal]
  | cons h t ih =>
    simp only [List.cons_append, byteVal_cons, ih, List.length_append]
    rw [pow_add]
    ring

/-- Claim C7 counterexample: the stored 16-byte key of the IPv4 address
10.0.0.0 does not begin with twelve zero bytes; bytes 10 and 11 are 0xff. -/
theorem c7_counterexample :
    (keyBytes ⟨.v4, 10 * 2 ^ 24⟩).take 12 ≠ List.replicate 12 0 := by decide

/-- Claim C7 (corrected): an IPv4 address is widened to its 16-byte key in
the IPv4-mapped IPv6 form: ten zero bytes, then 0xff 0xff, then the four
address bytes, so the key value is 0xffff * 2^32 plus the address value; and
a v4 prefix is inserted only into the v4 indexes, leaving both v6 indexes
unchanged. -/
theorem c7_v4_key_mapped (c : Calculator) (p : Pfx)
    (hfam : p.addr.fam = .v4) (hval : p.addr.val < 2 ^ 32) :
    keyVal p.addr = 65535 * 2 ^ 32 + p.addr.val ∧
    (keyBytes p.addr).take 12 = List.replicate 10 0 ++ [255, 255] ∧
    (keyBytes p.addr).length = 16 ∧
    (addPool c p).ipv6Pools = c.ipv6Pools ∧
    (addAllocatedPfx c p).allocatedIPv6Pfxs = c.allocatedIPv6Pfxs := by
  have hkb : keyBytes p.addr =
      (List.replicate 10 0 ++ [255, 255]) ++ toBytes 4 p.addr.val := by
    simp [keyBytes, hfam]
  refine ⟨?_, ?_, ?_, ?_, ?_⟩
  · rw [keyVal, hkb, byteVal_append, length_toBytes, byteVal_toBytes]
    have hmod : p.addr.val % 256 ^ 4 = p.addr.val := by
      apply Nat.mod_eq_of_lt
      calc p.addr.val < 2 ^ 32 := hval
      _ = 256 ^ 4 := by norm_num
    rw [hmod]
    norm_num [byteVal]
  · rw [hkb]
    have h12 : 12 = (List.replicate 10 0 ++ [255, 255] : List Nat).length := by decide
    rw [h12, List.take_left]
  · rw [hkb]
    simp [length_toBytes]
  · simp [addPool, hfam]
  · simp [addAllocatedPfx, hfam]

/-- Witness for C7: instantiated at the pool 10.0.0.0/24 on the empty
calculator. -/
theorem c7_v4_key_mapped_witness :
    keyVal pool24.addr = 65535 * 2 ^ 32 + pool24.addr.val :=
  (c7_v4_key_mapped newCalculator pool24 (by decide) (by decide)).1

/-- Claim C2 (code bug): a pool whose mask is longer than the requested mask
is not skipped; the enumerator emits exactly one candidate for it, built
from the pool address and the requested mask.  Here the pool 10.0.0.0/24
asked for mask 16 yields the candidate 10.0.0.0/16. -/
theorem c2_pool_longer_than_mask_emits :
    enumEmit .v4 16 [pool24] 0 = some ⟨⟨.v4, 10 * 2 ^ 24⟩, 16⟩ ∧
      enumEmit .v4 16 [pool24] 1 = none := by decide

/-- Claim C3 (code bug): from the calculator holding only the pool
10.0.0.0/24, NextAvailableIPv4Subnet for mask 16 succeeds and returns
10.0.0.0/16, a prefix that no pool contains as a prefix, violating the
claimed pool-containment of returned prefixes. -/
theorem c3_allocation_outside_pool :
    nextAvailableIPv4Subnet calcPool24 16 1 =
      some (query16, addAllocatedPfx calcPool24 query16) ∧
      (treeVals calcPool24.ipv4Pools).all (fun e => ! specContainsPfx e query16) = true := by
  decide

/-- Claim C1 counterexample: for the pool 0.0.0.0/0 and requested mask 1 the
claim demands exactly 2 candidates; the enumerator emits a third candidate,
equal to the first, because the wrapped all-zero address is still contained
in a /0 pool, so the inner loop never terminates. -/
theorem c1_counterexample :
    enumEmit .v4 1 [pool00] 2 = some ⟨⟨.v4, 0⟩, 1⟩ ∧
      enumEmit .v4 1 [pool00] 0 = some ⟨⟨.v4, 0⟩, 1⟩ := by decide

theorem mem_treeVals_insertKV (k : Nat) (v q : Pfx) (l : List (Nat × Pfx))
    (h : q ∈ treeVals (insertKV k v l)) : q ∈ treeVals l ∨ q = v := by
  induction l with
  | nil =>
    simp [insertKV, treeVals] at h
    exact Or.inr h
  | cons e t ih =>
    obtain ⟨k2, v2⟩ := e
    by_cases h1 : k < k2
    · simp only [insertKV, if_pos h1, treeVals, List.map_cons, List.mem_cons] at h ⊢
      tauto
    · by_cases h2 : k = k2
      · simp only [insertKV, if_neg h1, if_pos h2, treeVals, List.map_cons,
          List.mem_cons] at h ⊢
        tauto
      · simp only [insertKV, if_neg h1, if_neg h2, treeVals, List.map_cons,
          List.mem_cons] at h ⊢
        rcases h with h | h
        · tauto
        · rcases ih h with h3 | h3
          · simp only [treeVals] at h3
            tauto
          · tauto

theorem mem_storedPfxs_applyOp (c : Calculator) (op : CalcOp) (q : Pfx)
    (h : q ∈ storedPfxs (applyOp c op)) : q ∈ storedPfxs c ∨ q = opArg op := by
  cases op with
  | addPoolOp p =>
    simp only [applyOp, opArg, addPool] at h ⊢
    by_cases hf : p.addr.fam = .v4 <;>
      simp only [if_pos, if_neg, hf, reduceIte] at h <;>
      simp only [storedPfxs, List.mem_append] at h ⊢ <;>
      rcases h with ((h | h) | h) | h <;>
      first
        | (rcases mem_treeVals_insertKV _ _ _ _ h with h3 | h3 <;> tauto)
        | tauto
  | addAllocOp p =>
    simp only [applyOp, opArg, addAllocatedPfx] at h ⊢
    by_cases hf : p.addr.fam = .v4 <;>
      simp only [if_pos, if_neg, hf, reduceIte] at h <;>
      simp only [storedPfxs, List.mem_append] at h ⊢ <;>
      rcases h with ((h | h) | h) | h <;>
      first
        | (rcases mem_treeVals_insertKV _ _ _ _ h with h3 | h3 <;> tauto)
        | tauto

/-- Claim C5 counterexample: AddPool does not canonicalize: inserting the
non-canonical prefix 10.0.0.1/24 stores it verbatim, so the pools index then
holds a prefix with a nonzero host bit below its mask length. -/
theorem c5_counterexample :
    storedPfxs (applyOps newCalculator [CalcOp.addPoolOp badPool]) = [badPool] ∧
      isCanonical badPool = false := by decide

/-- Claim C5 (corrected): AddPool and AddAllocatedPrefix insert their
argument unchanged, with no masking of host bits; after any sequence of such
insertions every stored prefix is either one the state already held or
literally one of the supplied arguments, so stored prefixes are canonical
only when the host supplies canonical prefixes. -/
theorem c5_insert_unchanged (ops : List CalcOp) (c : Calculator) (q : Pfx)
    (hq : q ∈ storedPfxs (applyOps c ops)) :
    q ∈ storedPfxs c ∨ q ∈ ops.map opArg := by
  induction ops generalizing c with
  | nil =>
    simp only [applyOps, List.foldl_nil] at hq
    exact Or.inl hq
  | cons op t ih =>
    have hq2 : q ∈ storedPfxs (applyOps (applyOp c op) t) := by
      simpa [applyOps] using hq
    rcases ih (applyOp c op) hq2 with h | h
    · rcases mem_storedPfxs_applyOp c op q h with h2 | h2
      · exact Or.inl h2
      · exact Or.inr (by simp [h2])
    · exact Or.inr (by simp [h])

/-- Witness for C5: the stored non-canonical prefix 10.0.0.1/24 is traced
back to the argument of the AddPool call that inserted it. -/
theorem c5_insert_unchanged_witness :
    badPool ∈ storedPfxs newCalculator ∨
      badPool ∈ ([CalcOp.addPoolOp badPool]).map opArg :=
  c5_insert_unchanged [CalcOp.addPoolOp badPool] newCalculator badPool (by decide)

theorem div_block_eq (A H r : Nat) (hA : 0 < A) (hr : r < A) : (A * H + r) / A = H := by
  rw [Nat.mul_add_div hA, Nat.div_eq_of_lt hr]
  omega

theorem containsAddr_iff (f : Fam) (n : Pfx) (x : Nat) (hfam : n.addr.fam = f)
    (hbW : n.bits ≤ f.width) :
    containsAddr n ⟨f, x⟩ = true ↔
      x / 2 ^ (f.width - n.bits) = n.addr.val / 2 ^ (f.width - n.bits) := by
  simp [containsAddr, hfam, hbW]

theorem contains_block (f : Fam) (n : Pfx) (j : Nat) (hfam : n.addr.fam = f)
    (hcanon : n.addr.val % 2 ^ (f.width - n.bits) = 0)
    (hpm : n.bits ≤ m) (hmW : m ≤ f.width)
    (hj : j < 2 ^ (m - n.bits)) :
    containsAddr n ⟨f, n.addr.val + j * 2 ^ (f.width - m)⟩ = true := by
  have hA : (0 : Nat) < 2 ^ (f.width - n.bits) := Nat.pos_pow_of_pos _ (by norm_num)
  have hAsplit : 2 ^ (f.width - n.bits) = 2 ^ (m - n.bits) * 2 ^ (f.width - m) := by
    rw [← pow_add]
    congr 1
    omega
  have hbase : 2 ^ (f.width - n.bits) * (n.addr.val / 2 ^ (f.width - n.bits)) =
      n.addr.val := Nat.mul_div_cancel' (Nat.dvd_iff_mod_eq_zero.mpr hcanon)
  rw [containsAddr_iff f n _ hfam (by omega)]
  have hr : j * 2 ^ (f.width - m) < 2 ^ (f.width - n.bits) := by
    rw [hAsplit]
    exact Nat.mul_lt_mul_of_lt_of_le hj (le_refl _) (Nat.pos_pow_of_pos _ (by norm_num))
  calc (n.addr.val + j * 2 ^ (f.width - m)) / 2 ^ (f.width - n.bits)
      = (2 ^ (f.width - n.bits) * (n.addr.val / 2 ^ (f.width - n.bits)) +
          j * 2 ^ (f.width - m)) / 2 ^ (f.width - n.bits) := by rw [hbase]
    _ = n.addr.val / 2 ^ (f.width - n.bits) := div_block_eq _ _ _ hA hr

theorem factory_step_in (f : Fam) (n : Pfx) (rest : List Pfx) (m i : Nat)
    (hfam : n.addr.fam = f) (hval : n.addr.val < 2 ^ f.width)
    (hcanon : n.addr.val % 2 ^ (f.width - n.bits) = 0)
    (hpm : n.bits ≤ m) (hmW : m ≤ f.width)
    (hi : i + 1 < 2 ^ (m - n.bits)) :
    factoryStep f m ⟨rest, some (n, n.addr.val + i * 2 ^ (f.width - m))⟩ =
      some (⟨⟨f, n.addr.val + (i + 1) * 2 ^ (f.width - m)⟩, m⟩,
        ⟨rest, some (n, n.addr.val + (i + 1) * 2 ^ (f.width - m))⟩) := by
  have hA : (0 : Nat) < 2 ^ (f.width - n.bits) := Nat.pos_pow_of_pos _ (by norm_num)
  have hAsplit : 2 ^ (f.width - n.bits) = 2 ^ (m - n.bits) * 2 ^ (f.width - m) := by
    rw [← pow_add]
    congr 1
    omega
  have hbase : 2 ^ (f.width - n.bits) * (n.addr.val / 2 ^ (f.width - n.bits)) =
      n.addr.val := Nat.mul_div_cancel' (Nat.dvd_iff_mod_eq_zero.mpr hcanon)
  have hW : 2 ^ (f.width - n.bits) * 2 ^ n.bits = 2 ^ f.width := by
    rw [← pow_add]
    congr 1
    omega
  have hH : n.addr.val / 2 ^ (f.width - n.bits) < 2 ^ n.bits := by
    by_contra hcon
    push_neg at hcon
    have : 2 ^ f.width ≤ n.addr.val := by
      calc 2 ^ f.width = 2 ^ (f.width - n.bits) * 2 ^ n.bits := hW.symm
      _ ≤ 2 ^ (f.width - n.bits) * (n.addr.val / 2 ^ (f.width - n.bits)) :=
        Nat.mul_le_mul_left _ hcon
      _ = n.addr.val := hbase
    omega
  have hbaseub : n.addr.val + 2 ^ (f.width - n.bits) ≤ 2 ^ f.width := by
    calc n.addr.val + 2 ^ (f.width - n.bits)
        = 2 ^ (f.width - n.bits) * (n.addr.val / 2 ^ (f.width - n.bits)) +
          2 ^ (f.width - n.bits) := by rw [hbase]
      _ = 2 ^ (f.width - n.bits) * (n.addr.val / 2 ^ (f.width - n.bits) + 1) := by ring
      _ ≤ 2 ^ (f.width - n.bits) * 2 ^ n.bits := Nat.mul_le_mul_left _ (by omega)
      _ = 2 ^ f.width := hW
  have hstep : (i + 1) * 2 ^ (f.width - m) < 2 ^ (f.width - n.bits) := by
    rw [hAsplit]
    exact Nat.mul_lt_mul_of_lt_of_le hi (le_refl _) (Nat.pos_pow_of_pos _ (by norm_num))
  have hsumlt : n.addr.val + i * 2 ^ (f.width - m) + 2 ^ (f.width - m) < 2 ^ f.width := by
    have : n.addr.val + i * 2 ^ (f.width - m) + 2 ^ (f.width - m) =
        n.addr.val + (i + 1) * 2 ^ (f.width - m) := by ring
    omega
  have hinc : incVal f.width (n.addr.val + i * 2 ^ (f.width - m)) m =
      n.addr.val + (i + 1) * 2 ^ (f.width - m) := by
    unfold incVal
    rw [if_pos hsumlt]
    ring
  have hcontains := contains_block f n (i + 1) hfam hcanon hpm hmW hi
  simp only [factoryStep, hinc, hcontains, if_pos]

theorem factory_step_exit (f : Fam) (n : Pfx) (rest : List Pfx) (m : Nat)
    (hfam : n.addr.fam = f) (hval : n.addr.val < 2 ^ f.width)
    (hcanon : n.addr.val % 2 ^ (f.width - n.bits) = 0)
    (hp1 : 1 ≤ n.bits) (hpm : n.bits ≤ m) (hmW : m ≤ f.width) :
    factoryStep f m
        ⟨rest, some (n, n.addr.val + (2 ^ (m - n.bits) - 1) * 2 ^ (f.width - m))⟩ =
      startPool f m rest := by
  have hA : (0 : Nat) < 2 ^ (f.width - n.bits) := Nat.pos_pow_of_pos _ (by norm_num)
  have hN : (0 : Nat) < 2 ^ (m - n.bits) := Nat.pos_pow_of_pos _ (by norm_num)
  have hAsplit : 2 ^ (f.width - n.bits) = 2 ^ (m - n.bits) * 2 ^ (f.width - m) := by
    rw [← pow_add]
    congr 1
    omega
  have hbase : 2 ^ (f.width - n.bits) * (n.addr.val / 2 ^ (f.width - n.bits)) =
      n.addr.val := Nat.mul_div_cancel' (Nat.dvd_iff_mod_eq_zero.mpr hcanon)
  have hsum : n.addr.val + (2 ^ (m - n.bits) - 1) * 2 ^ (f.width - m) +
      2 ^ (f.width - m) = n.addr.val + 2 ^ (f.width - n.bits) := by
    have h1 : (2 ^ (m - n.bits) - 1) * 2 ^ (f.width - m) + 2 ^ (f.width - m) =
        2 ^ (m - n.bits) * 2 ^ (f.width - m) := by
      have h2 : 2 ^ (m - n.bits) - 1 + 1 = 2 ^ (m - n.bits) := by omega
      calc (2 ^ (m - n.bits) - 1) * 2 ^ (f.width - m) + 2 ^ (f.width - m)
          = (2 ^ (m - n.bits) - 1 + 1) * 2 ^ (f.width - m) := by ring
        _ = 2 ^ (m - n.bits) * 2 ^ (f.width - m) := by rw [h2]
    rw [← hAsplit] at h1
    omega
  have hnotcontains : containsAddr n
      ⟨f, incVal f.width
        (n.addr.val + (2 ^ (m - n.bits) - 1) * 2 ^ (f.width - m)) m⟩ = false := by
    unfold incVal
    by_cases hlt : n.addr.val + (2 ^ (m - n.bits) - 1) * 2 ^ (f.width - m) +
        2 ^ (f.width - m) < 2 ^ f.width
    · rw [if_pos hlt]
      rw [Bool.eq_false_iff]
      intro hcon
      rw [containsAddr_iff f n _ hfam (by omega)] at hcon
      rw [hsum] at hcon
      have hdiv : (n.addr.val + 2 ^ (f.width - n.bits)) / 2 ^ (f.width - n.bits) =
          n.addr.val / 2 ^ (f.width - n.bits) + 1 := by
        conv_lhs => rw [← hbase]
        have : 2 ^ (f.width - n.bits) * (n.addr.val / 2 ^ (f.width - n.bits)) +
            2 ^ (f.width - n.bits) =
            2 ^ (f.width - n.bits) * (n.addr.val / 2 ^ (f.width - n.bits) + 1) + 0 := by
          ring
        rw [this, div_block_eq _ _ _ hA hA]
      omega
    · rw [if_neg hlt]
      rw [Bool.eq_false_iff]
      intro hcon
      rw [containsAddr_iff f n 0 hfam (by omega)] at hcon
      rw [Nat.zero_div] at hcon
      have hH0 : n.addr.val / 2 ^ (f.width - n.bits) = 0 := hcon.symm
      have hbase0 : n.addr.val = 0 := by
        rw [← hbase, hH0]
        ring
      rw [hbase0] at hsum
      have hsmall : 2 ^ (f.width - n.bits) < 2 ^ f.width :=
        Nat.pow_lt_pow_right (by norm_num) (by omega)
      omega
  simp [factoryStep, hnotcontains]

theorem factoryEmit_segment (f : Fam) (n : Pfx) (rest : List Pfx) (m : Nat)
    (hfam : n.addr.fam = f) (hval : n.addr.val < 2 ^ f.width)
    (hcanon : n.addr.val % 2 ^ (f.width - n.bits) = 0)
    (hp1 : 1 ≤ n.bits) (hpm : n.bits ≤ m) (hmW : m ≤ f.width) :
    ∀ d i, i < 2 ^ (m - n.bits) →
      factoryEmit f m ⟨rest, some (n, n.addr.val + i * 2 ^ (f.width - m))⟩ d =
        if i + d + 1 < 2 ^ (m - n.bits)
        then some ⟨⟨f, n.addr.val + (i + d + 1) * 2 ^ (f.width - m)⟩, m⟩
        else factoryEmit f m ⟨rest, none⟩ (i + d + 1 - 2 ^ (m - n.bits)) := by
  intro d
  induction d with
  | zero =>
    intro i hi
    by_cases hi1 : i + 1 < 2 ^ (m - n.bits)
    · rw [if_pos (by omega)]
      have hstep := factory_step_in f n rest m i hfam hval hcanon hpm hmW hi1
      simp only [factoryEmit, hstep, Option.map_some']
    · have hiN : i = 2 ^ (m - n.bits) - 1 := by omega
      subst hiN
      have hexit := factory_step_exit f n rest m hfam hval hcanon hp1 hpm hmW
      rw [if_neg (by omega)]
      have hidx : 2 ^ (m - n.bits) - 1 + 0 + 1 - 2 ^ (m - n.bits) = 0 := by omega
      rw [hidx]
      simp only [factoryEmit]
      rw [hexit]
      rfl
  | succ d ihd =>
    intro i hi
    by_cases hi1 : i + 1 < 2 ^ (m - n.bits)
    · have hstep := factory_step_in f n rest m i hfam hval hcanon hpm hmW hi1
      simp only [factoryEmit, hstep]
      rw [ihd (i + 1) (by omega)]
      have heq : i + 1 + d + 1 = i + (d + 1) + 1 := by omega
      rw [heq]
    · have hiN : i = 2 ^ (m - n.bits) - 1 := by omega
      subst hiN
      have hexit := factory_step_exit f n rest m hfam hval hcanon hp1 hpm hmW
      rw [if_neg (by omega)]
      have hidx : 2 ^ (m - n.bits) - 1 + (d + 1) + 1 - 2 ^ (m - n.bits) = d + 1 := by
        omega
      rw [hidx]
      simp only [factoryEmit]
      rw [hexit]
      have hz : factoryStep f m ⟨rest, none⟩ = startPool f m rest := rfl
      rw [hz]

/-- Claim C1 (corrected): for a canonical pool of mask length p with
1 ≤ p ≤ m ≤ W at the head of the walk, the enumerator emits exactly the
2 ^ (m - p) subnets of the pool at mask m, with network addresses
base + i * 2 ^ (W - m) in strictly ascending order, and after them continues
exactly with the emissions of the remaining pools; the restriction to p ≥ 1
is forced by the /0 pool counterexample, where the inner loop never leaves
the pool. -/
theorem c1_enumeration_amended (f : Fam) (n : Pfx) (rest : List Pfx) (m : Nat)
    (hfam : n.addr.fam = f) (hval : n.addr.val < 2 ^ f.width)
    (hcanon : isCanonical n = true) (hp1 : 1 ≤ n.bits) (hpm : n.bits ≤ m)
    (hmW : m ≤ f.width) :
    (∀ i, i < 2 ^ (m - n.bits) →
      enumEmit f m (n :: rest) i =
        some ⟨⟨f, n.addr.val + i * 2 ^ (f.width - m)⟩, m⟩) ∧
    (∀ i j, i < j → j < 2 ^ (m - n.bits) →
      n.addr.val + i * 2 ^ (f.width - m) < n.addr.val + j * 2 ^ (f.width - m)) ∧
    (∀ j, enumEmit f m (n :: rest) (2 ^ (m - n.bits) + j) = enumEmit f m rest j) := by
  have hcanon2 : n.addr.val % 2 ^ (f.width - n.bits) = 0 := by
    simpa [isCanonical, hfam] using hcanon
  have hstart : factoryStep f m ⟨n :: rest, none⟩ =
      some (⟨⟨f, n.addr.val⟩, m⟩, ⟨rest, some (n, n.addr.val)⟩) := rfl
  have hbase0 : n.addr.val = n.addr.val + 0 * 2 ^ (f.width - m) := by ring
  refine ⟨?_, ?_, ?_⟩
  · intro i hi
    cases i with
    | zero =>
      simp only [enumEmit, factoryEmit, hstart, Option.map_some']
      norm_num
    | succ i2 =>
      have hseg := factoryEmit_segment f n rest m hfam hval hcanon2 hp1 hpm hmW i2 0
        (by positivity)
      rw [← hbase0] at hseg
      have hidx : 0 + i2 + 1 = i2 + 1 := by omega
      rw [hidx] at hseg
      simp only [enumEmit, factoryEmit, hstart]
      rw [hseg, if_pos hi]
  · intro i j hij hj
    have hpow : (0 : Nat) < 2 ^ (f.width - m) := Nat.pos_pow_of_pos _ (by norm_num)
    have := Nat.mul_lt_mul_of_lt_of_le hij (le_refl (2 ^ (f.width - m))) hpow
    omega
  · intro j
    have hN : (0 : Nat) < 2 ^ (m - n.bits) := Nat.pos_pow_of_pos _ (by norm_num)
    have hsucc : 2 ^ (m - n.bits) + j = (2 ^ (m - n.bits) - 1 + j) + 1 := by omega
    have hseg := factoryEmit_segment f n rest m hfam hval hcanon2 hp1 hpm hmW
      (2 ^ (m - n.bits) - 1 + j) 0 (by positivity)
    rw [← hbase0] at hseg
    have hidx : 0 + (2 ^ (m - n.bits) - 1 + j) + 1 - 2 ^ (m - n.bits) = j := by omega
    rw [hidx] at hseg
    rw [hsucc]
    simp only [enumEmit, factoryEmit, hstart]
    rw [hseg, if_neg (by omega)]

/-- Witness for C1: pool 10.0.0.0/24 at mask 25 emits 10.0.0.128/25 as its
second candidate. -/
theorem c1_enumeration_amended_witness :
    enumEmit .v4 25 (pool24 :: []) 1 =
      some ⟨⟨.v4, pool24.addr.val + 1 * 2 ^ (Fam.width .v4 - 25)⟩, 25⟩ :=
  (c1_enumeration_amended .v4 pool24 [] 25 (by decide) (by decide) (by decide)
    (by decide) (by decide) (by decide)).1 1 (by decide)

theorem containsAddr_self (f : Fam) (n : Pfx) (hfam : n.addr.fam = f)
    (hb : n.bits ≤ f.width) : containsAddr n ⟨f, n.addr.val⟩ = true := by
  rw [containsAddr_iff f n _ hfam hb]

theorem startPool_sound (f : Fam) (m : Nat) (walkVals l : List Pfx)
    (hok : poolsOk f walkVals) (hsub : ∀ n ∈ l, n ∈ walkVals) (cand : Pfx)
    (s2 : FactoryState) (h : startPool f m l = some (cand, s2)) :
    (∃ n ∈ walkVals, containsAddr n cand.addr = true) ∧ cand.addr.fam = f ∧
      cand.bits = m ∧ factoryInv f walkVals s2 := by
  cases l with
  | nil => simp [startPool] at h
  | cons n rest =>
    have hpair : cand = ⟨⟨f, n.addr.val⟩, m⟩ ∧ s2 = ⟨rest, some (n, n.addr.val)⟩ := by
      have h2 : (⟨⟨f, n.addr.val⟩, m⟩, (⟨rest, some (n, n.addr.val)⟩ : FactoryState)) =
          (cand, s2) := by
        simpa [startPool] using h
      exact ⟨(congrArg Prod.fst h2).symm, (congrArg Prod.snd h2).symm⟩
    obtain ⟨hc, hs⟩ := hpair
    subst hc hs
    have hn : n ∈ walkVals := hsub n (by simp)
    obtain ⟨hnf, hnb⟩ := hok n hn
    refine ⟨⟨n, hn, containsAddr_self f n hnf hnb⟩, rfl, rfl, ?_, ?_⟩
    · intro x hx
      exact hsub x (by simp [hx])
    · intro n2 a2 h2
      simp only [Option.some.injEq, Prod.mk.injEq] at h2
      obtain ⟨hn2, ha2⟩ := h2
      subst hn2 ha2
      exact ⟨hn, containsAddr_self f n hnf hnb⟩

theorem factoryStep_sound (f : Fam) (m : Nat) (walkVals : List Pfx)
    (hok : poolsOk f walkVals) (s : FactoryState) (hinv : factoryInv f walkVals s)
    (cand : Pfx) (s2 : FactoryState) (h : factoryStep f m s = some (cand, s2)) :
    (∃ n ∈ walkVals, containsAddr n cand.addr = true) ∧ cand.addr.fam = f ∧
      cand.bits = m ∧ factoryInv f walkVals s2 := by
  obtain ⟨hsub, hcur⟩ := hinv
  cases hc : s.cur with
  | none =>
    simp only [factoryStep, hc] at h
    exact startPool_sound f m walkVals s.pools hok hsub cand s2 h
  | some pr =>
    obtain ⟨n, a⟩ := pr
    simp only [factoryStep, hc] at h
    by_cases hcont : containsAddr n ⟨f, incVal f.width a m⟩ = true
    · rw [if_pos hcont] at h
      have hpair : cand = ⟨⟨f, incVal f.width a m⟩, m⟩ ∧
          s2 = ⟨s.pools, some (n, incVal f.width a m)⟩ := by
        simp only [Option.some.injEq, Prod.mk.injEq] at h
        exact ⟨h.1.symm, h.2.symm⟩
      obtain ⟨hcand, hs2⟩ := hpair
      subst hcand hs2
      have hn := (hcur n a hc).1
      refine ⟨⟨n, hn, hcont⟩, rfl, rfl, hsub, ?_⟩
      intro n2 a2 h2
      simp only [Option.some.injEq, Prod.mk.injEq] at h2
      obtain ⟨hn2, ha2⟩ := h2
      subst hn2 ha2
      exact ⟨hn, hcont⟩
    · rw [if_neg hcont] at h
      exact startPool_sound f m walkVals s.pools hok hsub cand s2 h

theorem navLoop_sound (c : Calculator) (f : Fam) (m : Nat) (walkVals : List Pfx)
    (hok : poolsOk f walkVals) :
    ∀ fuel s, factoryInv f walkVals s → ∀ p, navLoop c f m s fuel = some p →
      (∃ n ∈ walkVals, containsAddr n p.addr = true) ∧ p.addr.fam = f := by
  intro fuel
  induction fuel with
  | zero =>
    intro s _ p h
    simp [navLoop] at h
  | succ fuel ih =>
    intro s hinv p h
    simp only [navLoop] at h
    cases hstep : factoryStep f m s with
    | none =>
      rw [hstep] at h
      simp at h
    | some pr =>
      obtain ⟨cand, s2⟩ := pr
      rw [hstep] at h
      have h2 : (if pfxAvailable c cand = true then some cand
          else navLoop c f m s2 fuel) = some p := h
      obtain ⟨hex, hfamc, _, hinv2⟩ :=
        factoryStep_sound f m walkVals hok s hinv cand s2 hstep
      by_cases hav : pfxAvailable c cand = true
      · rw [if_pos hav] at h2
        simp only [Option.some.injEq] at h2
        subst h2
        exact ⟨hex, hfamc⟩
      · rw [if_neg hav] at h2
        exact ih s2 hinv2 p h2

/-- Claim C9 (confirmed): when NextAvailableIPv4Subnet or
NextAvailableIPv6Subnet returns a prefix successfully, PrefixInPools applied
to the returned prefix in the resulting calculator state returns true: every
emitted candidate has its network address inside one of the walked pools,
the pool indexes are unchanged by the call, and PrefixInPools tests exactly
that address containment. -/
theorem c9_containment_round_trip (c : Calculator) (m fuel : Nat) (p : Pfx)
    (c2 : Calculator)
    (hok4 : poolsOk .v4 (treeVals c.ipv4Pools))
    (hok6 : poolsOk .v6 (treeVals c.ipv6Pools)) :
    (nextAvailableIPv4Subnet c m fuel = some (p, c2) → pfxInPools c2 p = true) ∧
    (nextAvailableIPv6Subnet c m fuel = some (p, c2) → pfxInPools c2 p = true) := by
  have hinv4 : factoryInv .v4 (treeVals c.ipv4Pools) ⟨treeVals c.ipv4Pools, none⟩ :=
    ⟨fun n hn => hn, fun n a hx => nomatch hx⟩
  have hinv6 : factoryInv .v6 (treeVals c.ipv6Pools) ⟨treeVals c.ipv6Pools, none⟩ :=
    ⟨fun n hn => hn, fun n a hx => nomatch hx⟩
  constructor
  · intro h
    unfold nextAvailableIPv4Subnet at h
    cases hnav : navLoop c .v4 m ⟨treeVals c.ipv4Pools, none⟩ fuel with
    | none =>
      rw [hnav] at h
      simp at h
    | some p2 =>
      rw [hnav] at h
      simp only [Option.some.injEq] at h
      have hp : p2 = p := congrArg Prod.fst h
      have hc2 : ({ c with
          allocatedIPv4Pfxs := insertKV (keyVal p2.addr) p2 c.allocatedIPv4Pfxs } :
            Calculator) = c2 := congrArg Prod.snd h
      subst hp
      obtain ⟨⟨n, hn, hcont⟩, hfamp⟩ :=
        navLoop_sound c .v4 m _ hok4 fuel _ hinv4 p2 hnav
      have hpools : c2.ipv4Pools = c.ipv4Pools := by
        rw [← hc2]
      unfold pfxInPools
      rw [hfamp]
      simp only [reduceCtorEq, if_neg, hpools]
      rw [List.any_eq_true]
      obtain ⟨e, he, hesnd⟩ := List.mem_map.mp hn
      refine ⟨e, he, ?_⟩
      rw [hesnd]
      exact hcont
  · intro h
    unfold nextAvailableIPv6Subnet at h
    cases hnav : navLoop c .v6 m ⟨treeVals c.ipv6Pools, none⟩ fuel with
    | none =>
      rw [hnav] at h
      simp at h
    | some p2 =>
      rw [hnav] at h
      simp only [Option.some.injEq] at h
      have hp : p2 = p := congrArg Prod.fst h
      have hc2 : ({ c with
          allocatedIPv6Pfxs := insertKV (keyVal p2.addr) p2 c.allocatedIPv6Pfxs } :
            Calculator) = c2 := congrArg Prod.snd h
      subst hp
      obtain ⟨⟨n, hn, hcont⟩, hfamp⟩ :=
        navLoop_sound c .v6 m _ hok6 fuel _ hinv6 p2 hnav
      have hpools : c2.ipv6Pools = c.ipv6Pools := by
        rw [← hc2]
      unfold pfxInPools
      rw [hfamp]
      simp only [if_pos, hpools]
      rw [List.any_eq_true]
      obtain ⟨e, he, hesnd⟩ := List.mem_map.mp hn
      refine ⟨e, he, ?_⟩
      rw [hesnd]
      exact hcont

/-- Witness for C9: allocating a /25 out of the pool 10.0.0.0/24 and then
querying PrefixInPools on the returned prefix yields true. -/
theorem c9_containment_round_trip_witness :
    pfxInPools (addAllocatedPfx calcPool24 ⟨⟨.v4, 10 * 2 ^ 24⟩, 25⟩)
      ⟨⟨.v4, 10 * 2 ^ 24⟩, 25⟩ = true :=
  (c9_containment_round_trip calcPool24 25 1 ⟨⟨.v4, 10 * 2 ^ 24⟩, 25⟩
    (addAllocatedPfx calcPool24 ⟨⟨.v4, 10 * 2 ^ 24⟩, 25⟩)
    (by decide) (by decide)).1 (by decide)

end SubnetCalc
